import Mathlib

/-!
Verification of the Transfer Suggestion Engine of `src/main.py`
(fantasy-auto-trader).

The engine part of `main` (lines 200-262) is embedded shallowly:

* a universe player (an entry of `boot["elements"]`) becomes `Elem`,
  keeping the field names used by the code (`id`, `web_name`,
  `element_type`, `team`, `now_cost`, `status`, `ep_next`);
* Python `float` scores are modelled as exact rationals `ℚ`;
* the raw `ep_next` field is an `Option String` (`none` models JSON
  null) and `ep` mirrors the coercion helper of lines 24-28;
* `by_id` dict lookup becomes `lookupEl` (a Python dict comprehension
  keeps the *last* element for a repeated key, hence the `reverse`);
* `team_counts` (lines 30-35), the candidate-pool construction
  (lines 210-216), the per-sell evaluation loop (lines 219-248), the
  stable descending sort (line 250) and the dedup/truncate loop
  (lines 251-259) are each embedded by a definition below;
* `Sug` carries the five fields the code stores
  (`out_name`, `in_name`, `delta`, `out_cost`, `in_cost`) plus the two
  generating players `sell`/`buy` as ghost data used only to state
  invariants about which pair produced an entry.

Python's `list.sort(key=..., reverse=True)` is a stable sort placing
larger keys first and keeping the original order of equal keys; any
stable descending sort computes the same list, so it is embedded as a
stable insertion sort (`sortDesc`).
-/

/-- Split a character list at the first `'.'`; second component is
`none` when no dot occurs.  Helper for the decimal parser. -/
def splitDot : List Char → List Char × Option (List Char)
  | [] => ([], none)
  | c :: rest =>
    if c = '.' then ([], some rest)
    else
      let r := splitDot rest
      (c :: r.1, r.2)

/-- Value of a digit list read in base 10. -/
def digitsVal (cs : List Char) : Nat :=
  cs.foldl (fun n c => 10 * n + (c.toNat - 48)) 0

/-- Parse stage of the Python `float(s)` model, on plain decimal
literals: optional sign, digits, optional dot, digits, at least one
digit.  Returns the sign, the integer-part value, the fraction-part
value and the fraction length; `none` models the `ValueError` raised
on anything else (exponents, `inf`, `nan` and whitespace forms do not
occur in the `ep_next` data and are out of scope). -/
def pyFloatRaw (s : String) : Option (Bool × Nat × Nat × Nat) :=
  let cs := s.toList
  let sb : Bool × List Char :=
    match cs with
    | '-' :: rest => (true, rest)
    | '+' :: rest => (false, rest)
    | _ => (false, cs)
  let ipf := splitDot sb.2
  match ipf.2 with
  | none =>
    if ipf.1 ≠ [] ∧ ipf.1.all Char.isDigit then
      some (sb.1, digitsVal ipf.1, 0, 0)
    else none
  | some fp =>
    if (ipf.1 ≠ [] ∨ fp ≠ []) ∧ ipf.1.all Char.isDigit ∧ fp.all Char.isDigit then
      some (sb.1, digitsVal ipf.1, digitsVal fp, fp.length)
    else none

/-- Rational value of a parsed decimal literal:
`±(integer + fraction / 10 ^ length)`. -/
def ratOfParts (x : Bool × Nat × Nat × Nat) : ℚ :=
  (if x.1 then -1 else 1) * ((x.2.1 : ℚ) + (x.2.2.1 : ℚ) / (10 : ℚ) ^ x.2.2.2)

/-- Model of Python `float(s)`: parse, then evaluate exactly. -/
def pyFloat (s : String) : Option ℚ :=
  (pyFloatRaw s).map ratOfParts

/-- `ep` of `src/main.py` lines 24-28:
`float(v) if v not in (None, "", "0.0") else 0.0`, with any exception
caught and turned into `0.0` (modelled by `Option.getD`). -/
def ep (v : Option String) : ℚ :=
  match v with
  | none => 0
  | some s => if s = "" ∨ s = "0.0" then 0 else (pyFloat s).getD 0

/-- Round half to even to an integer (Python's `round` tie rule). -/
def roundHalfEven (q : ℚ) : ℤ :=
  let f := ⌊q⌋
  let r := q - (f : ℚ)
  if r < 1 / 2 then f
  else if 1 / 2 < r then f + 1
  else if f % 2 = 0 then f else f + 1

/-- Model of Python `round(x, 2)`: two-decimal rounding, ties to
even. -/
def round2 (q : ℚ) : ℚ :=
  (roundHalfEven (q * 100) : ℚ) / 100

/-- A universe player: one entry of `boot["elements"]`, with the
fields the engine reads.  `now_cost` is in tenths of the display
unit; `status` is the availability letter; `ep_next` the raw
projected-points field. -/
structure Elem where
  id : Nat
  web_name : String
  element_type : Nat
  team : Nat
  now_cost : Nat
  status : String
  ep_next : Option String
deriving DecidableEq, Inhabited, Repr

/-- `by_id[pid]`: a Python dict comprehension over `elements` keeps
the last element with a given key, hence lookup on the reversed list.
Total with a default (the code would raise `KeyError` for an id
absent from the universe; claims hypothesise roster ⊆ universe where
it matters). -/
def lookupEl (el : List Elem) (pid : Nat) : Elem :=
  ((el.reverse).find? (fun p => p.id == pid)).getD default

/-- `team_counts` of lines 30-35: fold over the owned ids, counting
players per club via `by_id[pid]["team"]`; a club absent from the
dict reads as `0` (`c.get(t, 0)`), hence the total-function
representation. -/
def team_counts (el : List Elem) (tids : List Nat) : Nat → ℤ :=
  tids.foldl (fun c pid => fun t => if t = (lookupEl el pid).team then c t + 1 else c t)
    (fun _ => 0)

/-- One step of the candidate-pool loop of lines 211-216: skip owned
players, skip statuses other than `"a"`/`"d"`, otherwise append to
the bucket of the player's position. -/
def pool_step (tids : List Nat) (m : Nat → List Elem) (p : Elem) : Nat → List Elem :=
  if p.id ∈ tids then m
  else if ¬ (p.status = "a" ∨ p.status = "d") then m
  else fun k => if k = p.element_type then m k ++ [p] else m k

/-- `pool_by_pos` of lines 210-216 as a function from position to
bucket. -/
def pool_by_pos (el : List Elem) (tids : List Nat) : Nat → List Elem :=
  el.foldl (pool_step tids) (fun _ => [])

/-- A suggestion record (lines 240-248).  The dict stored by the code
has exactly the fields `out_name`, `in_name`, `delta`, `out_cost`,
`in_cost`; `sell` and `buy` are ghost fields recording the generating
pair, used only in correctness statements. -/
structure Sug where
  sell : Elem
  buy : Elem
  out_name : String
  in_name : String
  delta : ℚ
  out_cost : ℚ
  in_cost : ℚ
deriving DecidableEq, Inhabited, Repr

/-- The record appended at lines 240-248 for a feasible pair. -/
def mkSug (sp cand : Elem) : Sug :=
  { sell := sp
    buy := cand
    out_name := sp.web_name
    in_name := cand.web_name
    delta := round2 (ep cand.ep_next - ep sp.ep_next)
    out_cost := (sp.now_cost : ℚ) / 10
    in_cost := (cand.now_cost : ℚ) / 10 }

/-- Body of the inner loop of lines 230-248 for one owned player
`sell`: budget check (`buy_cost > budget` skips, with
`budget = bank + sell_cost`), quota check on the counts with
`sell`'s club decremented (`counts.get(buy_club, 0) + 1 > 3` skips),
strict positive-gain check (`delta <= 0` skips). -/
def sellSugs (el : List Elem) (tids : List Nat) (bank : Nat) (club_cnt : Nat → ℤ)
    (sell : Nat) : List Sug :=
  let sp := lookupEl el sell
  (pool_by_pos el tids sp.element_type).filterMap (fun cand =>
    if bank + sp.now_cost < cand.now_cost then none
    else if 3 < club_cnt cand.team - (if cand.team = sp.team then 1 else 0) + 1 then none
    else if ep cand.ep_next - ep sp.ep_next ≤ 0 then none
    else some (mkSug sp cand))

/-- The `suggestions` list of lines 219-248: the outer loop over
`team_ids` in roster order, each contributing its feasible
positive-gain candidates in pool order. -/
def suggestions (el : List Elem) (tids : List Nat) (bank : Nat) : List Sug :=
  tids.flatMap (sellSugs el tids bank (team_counts el tids))

/-- Stable descending insertion: the new element (earlier in the
original list) is placed before every element whose `delta` does not
exceed its own, so equal keys keep their original order. -/
def insertDesc (s : Sug) : List Sug → List Sug
  | [] => [s]
  | y :: ys => if y.delta ≤ s.delta then s :: y :: ys else y :: insertDesc s ys

/-- `suggestions.sort(key=lambda x: x["delta"], reverse=True)`
(line 250): the unique stable sort placing larger `delta` first. -/
def sortDesc (l : List Sug) : List Sug :=
  l.foldr insertDesc []

/-- The name key the dedup loop of lines 251-259 actually uses:
`(s["out_name"], s["in_name"])`. -/
def nameKey (s : Sug) : String × String :=
  (s.out_name, s.in_name)

/-- The `(sell.id, buy.id)` key named by the specification. -/
def idKey (s : Sug) : Nat × Nat :=
  (s.sell.id, s.buy.id)

/-- The dedup-and-truncate loop of lines 251-259: walk the sorted
list, skip an entry whose name key was seen, keep at most `k`
entries (the code appends and breaks once `len(top3) == 3`). -/
def takeTop : Nat → List (String × String) → List Sug → List Sug
  | _, _, [] => []
  | k, seen, s :: rest =>
    if k = 0 then []
    else if nameKey s ∈ seen then takeTop k seen rest
    else s :: takeTop (k - 1) (nameKey s :: seen) rest

/-- The `top3` list the engine hands to the result sink: sort, dedup
by name key, keep the first three. -/
def top3 (el : List Elem) (tids : List Nat) (bank : Nat) : List Sug :=
  takeTop 3 [] (sortDesc (suggestions el tids bank))

/-- The two output states of lines 261-270: the distinguished
"no positive-gain upgrades found" message, or the ranked list. -/
inductive Output where
  | noUpgrades : Output
  | upgrades : List Sug → Output
deriving DecidableEq, Repr

/-- The branch at line 261: an empty `top3` selects the distinct
no-upgrades message, never an error. -/
def emit (l : List Sug) : Output :=
  if l = [] then Output.noUpgrades else Output.upgrades l

/-- Modelled from the spec (§4.2 "a swap is keyed by
`(sell.id, buy.id)`; only the first occurrence under the sort order
is retained"): the dedup loop with the id key the specification
names, for comparison with `takeTop`. -/
def takeTopIdKey : Nat → List (Nat × Nat) → List Sug → List Sug
  | _, _, [] => []
  | k, seen, s :: rest =>
    if k = 0 then []
    else if idKey s ∈ seen then takeTopIdKey k seen rest
    else s :: takeTopIdKey (k - 1) (idKey s :: seen) rest

/-- Modelled from the spec: the engine output as §4.2 describes it,
identical to `top3` except that dedup is keyed by
`(sell.id, buy.id)`. -/
def top3IdKey (el : List Elem) (tids : List Nat) (bank : Nat) : List Sug :=
  takeTopIdKey 3 [] (sortDesc (suggestions el tids bank))

/-- Club count after replacing `sell` by `buy` one-for-one:
`sell`'s club loses one, `buy`'s club gains one. -/
def postSwapCount (el : List Elem) (tids : List Nat) (s : Sug) (c : Nat) : ℤ :=
  team_counts el tids c - (if c = s.sell.team then 1 else 0) + (if c = s.buy.team then 1 else 0)

/-! Concrete data used for counterexamples and witnesses.  One owned
forward `pS` (id 1, club 1, cost 80, projected 1.0) and two unowned
forwards `pB` (id 2, club 2, cost 50, projected 5.0) and `pC` (id 3,
club 3, cost 50, projected 4.0) that share the display name `"X"`;
with bank 10 both candidate swaps are feasible with positive gain. -/

/-- Example owned player (the `sell` side). -/
def pS : Elem := ⟨1, "S", 1, 1, 80, "a", some "1.0"⟩

/-- Example candidate, display name `"X"`, club 2, projected 5.0. -/
def pB : Elem := ⟨2, "X", 1, 2, 50, "a", some "5.0"⟩

/-- Example candidate with the same display name `"X"` as `pB` but a
different id, club 3, projected 4.0. -/
def pC : Elem := ⟨3, "X", 1, 3, 50, "a", some "4.0"⟩

/-- Example universe. -/
def exEl : List Elem := [pS, pB, pC]

/-- Example roster: just `pS`. -/
def exT : List Nat := [1]

/-- Scenario-C data: a candidate costing exactly
`bank + sell.cost = 5 + 80`. -/
def pD : Elem := ⟨4, "D", 1, 2, 85, "a", some "9.0"⟩

/-- Universe for the boundary scenario. -/
def exElC : List Elem := [pS, pD]

/-- Scenario-D data: the only candidate has a lower projected score
than the owned player. -/
def pE : Elem := ⟨5, "E", 1, 2, 50, "a", some "0.5"⟩

/-- Universe for the no-upgrade scenario. -/
def exElD : List Elem := [pS, pE]

/-! Structural lemmas about the sort and the dedup/truncate loop. -/

/-- Inserting permutes: `insertDesc s l` is `s :: l` up to order. -/
theorem insertDesc_perm (s : Sug) (l : List Sug) : (insertDesc s l).Perm (s :: l) := by
  induction l with
  | nil => exact List.Perm.refl _
  | cons y ys ih =>
    by_cases h : y.delta ≤ s.delta
    · simp only [insertDesc, if_pos h]
      exact List.Perm.refl _
    · simp only [insertDesc, if_neg h]
      exact (ih.cons y).trans (List.Perm.swap s y ys)

/-- The sort permutes the suggestion list. -/
theorem sortDesc_perm (l : List Sug) : (sortDesc l).Perm l := by
  induction l with
  | nil => exact List.Perm.refl _
  | cons s rest ih =>
    exact (insertDesc_perm s (sortDesc rest)).trans (ih.cons s)

/-- Inserting into a descending list keeps it descending. -/
theorem insertDesc_pairwise {s : Sug} {l : List Sug}
    (h : l.Pairwise (fun a b => b.delta ≤ a.delta)) :
    (insertDesc s l).Pairwise (fun a b => b.delta ≤ a.delta) := by
  induction l with
  | nil => simp [insertDesc]
  | cons y ys ih =>
    rcases List.pairwise_cons.mp h with ⟨hy, hys⟩
    by_cases hc : y.delta ≤ s.delta
    · simp only [insertDesc, if_pos hc]
      refine List.pairwise_cons.mpr ⟨?_, h⟩
      intro b hb
      rcases List.mem_cons.mp hb with rfl | hb
      · exact hc
      · exact le_trans (hy b hb) hc
    · simp only [insertDesc, if_neg hc]
      refine List.pairwise_cons.mpr ⟨?_, ih hys⟩
      intro b hb
      rcases List.mem_cons.mp ((insertDesc_perm s ys).mem_iff.mp hb) with rfl | hb
      · exact le_of_lt (lt_of_not_le hc)
      · exact hy b hb

/-- The sorted list is descending in the stored `delta` field (the
sort key of line 250 is exactly that field). -/
theorem sortDesc_pairwise (l : List Sug) :
    (sortDesc l).Pairwise (fun a b => b.delta ≤ a.delta) := by
  induction l with
  | nil => simp [sortDesc]
  | cons s rest ih => exact insertDesc_pairwise ih

/-- Stability of insertion, expressed on one key class: the sublist
of entries with a given `delta` is unchanged. -/
theorem filter_insertDesc (d : ℚ) (s : Sug) (l : List Sug) :
    (insertDesc s l).filter (fun x => decide (x.delta = d)) =
      (s :: l).filter (fun x => decide (x.delta = d)) := by
  induction l with
  | nil => rfl
  | cons y ys ih =>
    by_cases hc : y.delta ≤ s.delta
    · simp only [insertDesc, if_pos hc]
    · simp only [insertDesc, if_neg hc]
      have hlt : s.delta < y.delta := lt_of_not_le hc
      by_cases hyd : y.delta = d
      · have hsd : ¬ s.delta = d := fun h => absurd (h.trans hyd.symm) (ne_of_lt hlt)
        simp only [List.filter_cons, ih]
        simp [hyd, hsd]
      · simp only [List.filter_cons, ih]
        simp [hyd]

/-- Stability of the sort of line 250: Python's `list.sort` is
stable, so within one `delta` class the enumeration order
(roster order of the sold player, then pool order of the bought one)
is preserved. -/
theorem filter_sortDesc (d : ℚ) (l : List Sug) :
    (sortDesc l).filter (fun x => decide (x.delta = d)) =
      l.filter (fun x => decide (x.delta = d)) := by
  induction l with
  | nil => rfl
  | cons s rest ih =>
    have h1 : sortDesc (s :: rest) = insertDesc s (sortDesc rest) := rfl
    rw [h1, filter_insertDesc, List.filter_cons, List.filter_cons, ih]

/-- The dedup/truncate loop only drops entries. -/
theorem takeTop_sublist (k : Nat) (seen : List (String × String)) (l : List Sug) :
    (takeTop k seen l).Sublist l := by
  induction l generalizing k seen with
  | nil => simp [takeTop]
  | cons s rest ih =>
    simp only [takeTop]
    split_ifs with h1 h2
    · exact List.nil_sublist _
    · exact (ih k seen).cons s
    · exact (ih (k - 1) (nameKey s :: seen)).cons₂ s

/-- Every entry the engine returns was a generated suggestion. -/
theorem mem_of_mem_top3 {el : List Elem} {tids : List Nat} {bank : Nat} {s : Sug}
    (h : s ∈ top3 el tids bank) : s ∈ suggestions el tids bank := by
  have h1 : s ∈ sortDesc (suggestions el tids bank) :=
    (takeTop_sublist 3 [] _).subset h
  exact (sortDesc_perm _).mem_iff.mp h1

/-- Characterisation of the suggestion list of lines 219-248: an
entry is generated exactly for a roster id `sid` and a pool candidate
of `sell`'s position passing the inclusive budget check, the
adjusted-quota check and the strict positive-gain check. -/
theorem mem_suggestions {el : List Elem} {tids : List Nat} {bank : Nat} {s : Sug} :
    s ∈ suggestions el tids bank ↔
      ∃ sid ∈ tids, ∃ cand ∈ pool_by_pos el tids (lookupEl el sid).element_type,
        cand.now_cost ≤ bank + (lookupEl el sid).now_cost ∧
        team_counts el tids cand.team
            - (if cand.team = (lookupEl el sid).team then 1 else 0) + 1 ≤ 3 ∧
        0 < ep cand.ep_next - ep (lookupEl el sid).ep_next ∧
        s = mkSug (lookupEl el sid) cand := by
  unfold suggestions sellSugs
  simp only [List.mem_flatMap, List.mem_filterMap]
  constructor
  · rintro ⟨sid, hsid, cand, hcand, hsc⟩
    by_cases h1 : bank + (lookupEl el sid).now_cost < cand.now_cost
    · rw [if_pos h1] at hsc
      simp at hsc
    rw [if_neg h1] at hsc
    by_cases h2 : 3 < team_counts el tids cand.team
        - (if cand.team = (lookupEl el sid).team then 1 else 0) + 1
    · rw [if_pos h2] at hsc
      simp at hsc
    rw [if_neg h2] at hsc
    by_cases h3 : ep cand.ep_next - ep (lookupEl el sid).ep_next ≤ 0
    · rw [if_pos h3] at hsc
      simp at hsc
    rw [if_neg h3] at hsc
    exact ⟨sid, hsid, cand, hcand, not_lt.mp h1, not_lt.mp h2, not_le.mp h3,
      (Option.some_inj.mp hsc).symm⟩
  · rintro ⟨sid, hsid, cand, hcand, hb, hq, hd, rfl⟩
    refine ⟨sid, hsid, cand, hcand, ?_⟩
    rw [if_neg (not_lt.mpr hb), if_neg (not_lt.mpr hq), if_neg (not_le.mpr hd)]

/-- Generalised fold lemma for the candidate-pool loop: the bucket of
`pos` collects, in order, the universe players that are unowned, have
status `"a"` or `"d"`, and play position `pos`. -/
theorem pool_foldl (tids : List Nat) (el : List Elem) (m : Nat → List Elem) (pos : Nat) :
    (el.foldl (pool_step tids) m) pos =
      m pos ++ el.filter
        (fun p => decide (¬ p.id ∈ tids ∧ (p.status = "a" ∨ p.status = "d") ∧ p.element_type = pos)) := by
  induction el generalizing m with
  | nil => simp
  | cons p rest ih =>
    simp only [List.foldl_cons, List.filter_cons]
    rw [ih]
    by_cases h1 : p.id ∈ tids
    · have hc : decide (¬ p.id ∈ tids ∧ (p.status = "a" ∨ p.status = "d") ∧ p.element_type = pos) = false := by
        simp [h1]
      rw [hc]
      simp only [Bool.false_eq_true, if_false]
      have hstep : pool_step tids m p = m := by rw [pool_step, if_pos h1]
      rw [hstep]
    · by_cases h2 : p.status = "a" ∨ p.status = "d"
      · have hstep : pool_step tids m p =
            fun k => if k = p.element_type then m k ++ [p] else m k := by
          rw [pool_step, if_neg h1, if_neg (not_not_intro h2)]
        rw [hstep]
        by_cases h3 : p.element_type = pos
        · have hc : decide (¬ p.id ∈ tids ∧ (p.status = "a" ∨ p.status = "d") ∧ p.element_type = pos) = true := by
            simp [h1, h2, h3]
          rw [hc]
          simp only [if_pos h3.symm, if_true]
          rw [List.append_assoc]
          rfl
        · have hc : decide (¬ p.id ∈ tids ∧ (p.status = "a" ∨ p.status = "d") ∧ p.element_type = pos) = false := by
            simp [h3]
          rw [hc]
          simp only [Bool.false_eq_true, if_false]
          have hkey : (if pos = p.element_type then m pos ++ [p] else m pos) = m pos := by
            rw [if_neg (fun h => h3 h.symm)]
          simp only [hkey]
      · have hc : decide (¬ p.id ∈ tids ∧ (p.status = "a" ∨ p.status = "d") ∧ p.element_type = pos) = false := by
          simp only [decide_eq_false_iff_not]
          intro h
          exact h2 h.2.1
        rw [hc]
        simp only [Bool.false_eq_true, if_false]
        have hstep : pool_step tids m p = m := by rw [pool_step, if_neg h1, if_pos h2]
        rw [hstep]

/-- The candidate pool of lines 210-216 is exactly a filter of the
universe list, in universe order. -/
theorem pool_by_pos_eq_filter (el : List Elem) (tids : List Nat) (pos : Nat) :
    pool_by_pos el tids pos =
      el.filter
        (fun p => decide (¬ p.id ∈ tids ∧ (p.status = "a" ∨ p.status = "d") ∧ p.element_type = pos)) := by
  rw [pool_by_pos, pool_foldl]
  rfl

/-- When the roster id occurs in the universe, `by_id[sid]` really
has id `sid`. -/
theorem lookupEl_id {el : List Elem} {sid : Nat} (h : ∃ p ∈ el, p.id = sid) :
    (lookupEl el sid).id = sid := by
  unfold lookupEl
  rcases h with ⟨p, hp, hpid⟩
  have hrev : ∃ q ∈ el.reverse, (fun r => r.id == sid) q = true :=
    ⟨p, List.mem_reverse.mpr hp, by simp [hpid]⟩
  obtain ⟨q, hq⟩ := Option.isSome_iff_exists.mp (List.find?_isSome.mpr hrev)
  rw [hq, Option.getD_some]
  simpa using List.find?_some hq

/-- Every record produced for owned id `sid` has `sell = by_id[sid]`. -/
theorem sell_of_mem_sellSugs {el : List Elem} {tids : List Nat} {bank : Nat}
    {cnt : Nat → ℤ} {sid : Nat} {s : Sug} (h : s ∈ sellSugs el tids bank cnt sid) :
    s.sell = lookupEl el sid := by
  unfold sellSugs at h
  rcases List.mem_filterMap.mp h with ⟨cand, _, hc⟩
  split_ifs at hc <;> simp_all [mkSug] <;> rw [← hc]

/-- For a producer that always stores its input as the `buy` field,
the bought players form a sublist of the scanned candidate list. -/
theorem map_buy_filterMap_sublist (f : Elem → Option Sug)
    (hf : ∀ c s, f c = some s → s.buy = c) (l : List Elem) :
    ((l.filterMap f).map Sug.buy).Sublist l := by
  induction l with
  | nil => simp
  | cons c rest ih =>
    cases hfc : f c with
    | none =>
      simp only [List.filterMap_cons, hfc]
      exact ih.cons c
    | some s =>
      simp only [List.filterMap_cons, hfc, List.map_cons]
      rw [hf c s hfc]
      exact ih.cons₂ c

/-- The bought players of one owned id's records form a sublist of
that id's candidate pool. -/
theorem sellSugs_buy_sublist (el : List Elem) (tids : List Nat) (bank : Nat)
    (cnt : Nat → ℤ) (sid : Nat) :
    ((sellSugs el tids bank cnt sid).map Sug.buy).Sublist
      (pool_by_pos el tids (lookupEl el sid).element_type) := by
  unfold sellSugs
  apply map_buy_filterMap_sublist
  intro c s h
  split_ifs at h <;> simp_all [mkSug] <;> rw [← h]

/-- The candidate pool is a sublist of the universe list. -/
theorem pool_by_pos_sublist (el : List Elem) (tids : List Nat) (pos : Nat) :
    (pool_by_pos el tids pos).Sublist el := by
  rw [pool_by_pos_eq_filter]
  exact List.filter_sublist el

/-- With unique universe ids, one owned id's records carry pairwise
distinct `(sell.id, buy.id)` keys. -/
theorem sellSugs_idKey_nodup {el : List Elem} {tids : List Nat} {bank : Nat}
    {cnt : Nat → ℤ} {sid : Nat} (hel : (el.map Elem.id).Nodup) :
    ((sellSugs el tids bank cnt sid).map idKey).Nodup := by
  have hpool : ((pool_by_pos el tids (lookupEl el sid).element_type).map Elem.id).Nodup :=
    ((pool_by_pos_sublist el tids _).map Elem.id).nodup hel
  have hbuys : ((sellSugs el tids bank cnt sid).map (fun s => s.buy.id)).Nodup := by
    have h1 := (sellSugs_buy_sublist el tids bank cnt sid).map Elem.id
    rw [List.map_map] at h1
    exact h1.nodup hpool
  have hmap : (sellSugs el tids bank cnt sid).map idKey =
      (sellSugs el tids bank cnt sid).map (fun s => ((lookupEl el sid).id, s.buy.id)) := by
    apply List.map_congr_left
    intro s hs
    rw [idKey, sell_of_mem_sellSugs hs]
  rw [hmap]
  have hcomp : (sellSugs el tids bank cnt sid).map (fun s => ((lookupEl el sid).id, s.buy.id)) =
      ((sellSugs el tids bank cnt sid).map (fun s => s.buy.id)).map
        (fun b => ((lookupEl el sid).id, b)) := by
    rw [List.map_map]
    rfl
  rw [hcomp]
  exact hbuys.map (fun a b h => (Prod.mk.injEq _ _ _ _).mp h |>.2)

/-- With unique universe ids, a duplicate-free roster drawn from the
universe generates pairwise distinct `(sell.id, buy.id)` keys across
the whole suggestion list. -/
theorem suggestions_idKey_nodup {el : List Elem} {tids : List Nat} {bank : Nat}
    (hel : (el.map Elem.id).Nodup) (htids : tids.Nodup)
    (hsub : ∀ sid ∈ tids, ∃ p ∈ el, p.id = sid) :
    ((suggestions el tids bank).map idKey).Nodup := by
  unfold suggestions
  rw [List.map_flatMap, List.nodup_flatMap]
  refine ⟨fun sid _ => sellSugs_idKey_nodup hel, ?_⟩
  have hfst : ∀ sid ∈ tids,
      ∀ x ∈ (sellSugs el tids bank (team_counts el tids) sid).map idKey, x.1 = sid := by
    intro sid hsid x hx
    rcases List.mem_map.mp hx with ⟨s, hs, rfl⟩
    show s.sell.id = sid
    rw [sell_of_mem_sellSugs hs, lookupEl_id (hsub sid hsid)]
  refine List.Pairwise.imp_of_mem ?_ htids
  intro a b ha hb hne x hxa hxb
  exact hne ((hfst a ha x hxa).symm.trans (hfst b hb x hxb))

/-- Length of the dedup/truncate loop's output: the bound `k` capped
by the number of distinct unseen name keys in the input. -/
theorem takeTop_length (l : List Sug) : ∀ (k : Nat) (seen : List (String × String)),
    (takeTop k seen l).length =
      min k (((l.map nameKey).toFinset) \ seen.toFinset).card := by
  induction l with
  | nil =>
    intro k seen
    simp [takeTop]
  | cons s rest ih =>
    intro k seen
    rcases Nat.eq_zero_or_pos k with rfl | hk
    · simp [takeTop]
    have hk0 : ¬ k = 0 := Nat.pos_iff_ne_zero.mp hk
    by_cases hs : nameKey s ∈ seen
    · rw [show takeTop k seen (s :: rest) = takeTop k seen rest by
        simp only [takeTop, if_neg hk0, if_pos hs]]
      rw [ih k seen]
      have hset : (((s :: rest).map nameKey).toFinset) \ seen.toFinset =
          ((rest.map nameKey).toFinset) \ seen.toFinset := by
        rw [List.map_cons, List.toFinset_cons]
        ext x
        simp only [Finset.mem_sdiff, Finset.mem_insert]
        constructor
        · rintro ⟨hx | hx, hns⟩
          · exact absurd (hx ▸ List.mem_toFinset.mpr hs) hns
          · exact ⟨hx, hns⟩
        · rintro ⟨hx, hns⟩
          exact ⟨Or.inr hx, hns⟩
      rw [hset]
    · rw [show takeTop k seen (s :: rest) =
          s :: takeTop (k - 1) (nameKey s :: seen) rest by
        simp only [takeTop, if_neg hk0, if_neg hs]]
      have hkey : nameKey s ∉ seen.toFinset := fun h => hs (List.mem_toFinset.mp h)
      have h1 : (((s :: rest).map nameKey).toFinset) \ seen.toFinset =
          insert (nameKey s) (((rest.map nameKey).toFinset) \ seen.toFinset) := by
        rw [List.map_cons, List.toFinset_cons]
        ext x
        simp only [Finset.mem_sdiff, Finset.mem_insert]
        constructor
        · rintro ⟨hx | hx, hns⟩
          · exact Or.inl hx
          · exact Or.inr ⟨hx, hns⟩
        · rintro (rfl | ⟨hx, hns⟩)
          · exact ⟨Or.inl rfl, hkey⟩
          · exact ⟨Or.inr hx, hns⟩
      have h2 : ((rest.map nameKey).toFinset) \ (nameKey s :: seen).toFinset =
          (((rest.map nameKey).toFinset) \ seen.toFinset).erase (nameKey s) := by
        rw [List.toFinset_cons]
        exact Finset.sdiff_insert _ _ _
      have h3 : insert (nameKey s) (((rest.map nameKey).toFinset) \ seen.toFinset) =
          insert (nameKey s)
            ((((rest.map nameKey).toFinset) \ seen.toFinset).erase (nameKey s)) := by
        ext x
        simp only [Finset.mem_insert, Finset.mem_erase]
        constructor
        · rintro (rfl | hx)
          · exact Or.inl rfl
          · by_cases hxk : x = nameKey s
            · exact Or.inl hxk
            · exact Or.inr ⟨hxk, hx⟩
        · rintro (rfl | ⟨_, hx⟩)
          · exact Or.inl rfl
          · exact Or.inr hx
      obtain ⟨k', rfl⟩ : ∃ k', k = k' + 1 :=
        ⟨k - 1, (Nat.succ_pred_eq_of_pos hk).symm⟩
      rw [List.length_cons, ih (k' + 1 - 1) (nameKey s :: seen), h1, h2, h3,
        Finset.card_insert_of_not_mem (Finset.not_mem_erase _ _)]
      have hred : k' + 1 - 1 = k' := rfl
      rw [hred, Nat.succ_min_succ]

/-- The dedup/truncate loop never emits a seen key, and emits
pairwise distinct name keys. -/
theorem takeTop_names (l : List Sug) : ∀ (k : Nat) (seen : List (String × String)),
    (∀ x ∈ takeTop k seen l, nameKey x ∉ seen) ∧
      ((takeTop k seen l).map nameKey).Nodup := by
  induction l with
  | nil =>
    intro k seen
    simp [takeTop]
  | cons s rest ih =>
    intro k seen
    rcases Nat.eq_zero_or_pos k with rfl | hk
    · simp [takeTop]
    have hk0 : ¬ k = 0 := Nat.pos_iff_ne_zero.mp hk
    by_cases hs : nameKey s ∈ seen
    · rw [show takeTop k seen (s :: rest) = takeTop k seen rest by
        simp only [takeTop, if_neg hk0, if_pos hs]]
      exact ih k seen
    · rw [show takeTop k seen (s :: rest) =
          s :: takeTop (k - 1) (nameKey s :: seen) rest by
        simp only [takeTop, if_neg hk0, if_neg hs]]
      obtain ⟨ih1, ih2⟩ := ih (k - 1) (nameKey s :: seen)
      constructor
      · intro x hx
        rcases List.mem_cons.mp hx with rfl | hx
        · exact hs
        · intro hxs
          exact (ih1 x hx) (List.mem_cons_of_mem _ hxs)
      · rw [List.map_cons, List.nodup_cons]
        refine ⟨?_, ih2⟩
        intro hmem
        rcases List.mem_map.mp hmem with ⟨x, hx, hxk⟩
        exact (ih1 x hx) (by rw [hxk]; exact List.mem_cons_self _ _)

/-! Evaluation lemmas on the concrete example data. -/

/-- Rounding is the identity on integral rationals. -/
theorem roundHalfEven_intCast (n : ℤ) : roundHalfEven (n : ℚ) = n := by
  unfold roundHalfEven
  norm_num

/-- Two-decimal rounding is the identity on integral rationals. -/
theorem round2_intCast (n : ℤ) : round2 ((n : ℚ)) = n := by
  unfold round2
  have h : ((n : ℚ)) * 100 = ((n * 100 : ℤ) : ℚ) := by push_cast; ring
  rw [h, roundHalfEven_intCast]
  push_cast
  field_simp

/-- Score of the literal `"1.0"`. -/
theorem ep_one : ep (some "1.0") = 1 := by
  simp [ep, pyFloat, show pyFloatRaw "1.0" = some (false, 1, 0, 1) from by decide, ratOfParts]

/-- Score of the literal `"5.0"`. -/
theorem ep_five : ep (some "5.0") = 5 := by
  simp [ep, pyFloat, show pyFloatRaw "5.0" = some (false, 5, 0, 1) from by decide, ratOfParts]

/-- Score of the literal `"4.0"`. -/
theorem ep_four : ep (some "4.0") = 4 := by
  simp [ep, pyFloat, show pyFloatRaw "4.0" = some (false, 4, 0, 1) from by decide, ratOfParts]

/-- Score of the literal `"9.0"`. -/
theorem ep_nine : ep (some "9.0") = 9 := by
  simp [ep, pyFloat, show pyFloatRaw "9.0" = some (false, 9, 0, 1) from by decide, ratOfParts]

/-- Score of the literal `"0.5"`. -/
theorem ep_half : ep (some "0.5") = 1 / 2 := by
  simp [ep, pyFloat, show pyFloatRaw "0.5" = some (false, 0, 5, 1) from by decide, ratOfParts]
  norm_num

/-- Lookup of the owned id in the example universe. -/
theorem lookupEl_exEl : lookupEl exEl 1 = pS := by decide

/-- Candidate pool of the example universe. -/
theorem pool_exEl : pool_by_pos exEl exT 1 = [pB, pC] := by decide

/-- Club counts of the example roster. -/
theorem team_counts_exEl : ∀ t, team_counts exEl exT t = if t = 1 then 1 else 0 := by
  intro t
  simp [team_counts, exT, lookupEl_exEl, pS]

/-- Stored delta of the example swap to `pB`. -/
theorem delta_pB : (mkSug pS pB).delta = 4 := by
  have h4 : round2 ((4 : ℤ) : ℚ) = ((4 : ℤ) : ℚ) := round2_intCast 4
  norm_num at h4
  simp [mkSug, pS, pB, ep_five, ep_one]
  norm_num [h4]

/-- Stored delta of the example swap to `pC`. -/
theorem delta_pC : (mkSug pS pC).delta = 3 := by
  have h3 : round2 ((3 : ℤ) : ℚ) = ((3 : ℤ) : ℚ) := round2_intCast 3
  norm_num at h3
  simp [mkSug, pS, pC, ep_four, ep_one]
  norm_num [h3]

/-- The example run generates exactly the two candidate swaps, in
pool order. -/
theorem suggestions_exEl : suggestions exEl exT 10 = [mkSug pS pB, mkSug pS pC] := by
  simp only [suggestions, exT, List.flatMap_cons, List.flatMap_nil, List.append_nil]
  rw [sellSugs]
  rw [lookupEl_exEl, show pS.element_type = 1 from rfl]
  rw [show pool_by_pos exEl [1] 1 = [pB, pC] from pool_exEl]
  simp only [List.filterMap_cons]
  rw [show (team_counts exEl [1]) = (team_counts exEl exT) from rfl]
  norm_num [team_counts_exEl, pS, pB, pC, ep_one, ep_five, ep_four]

/-- The example suggestion list is already sorted. -/
theorem sortDesc_exEl : sortDesc [mkSug pS pB, mkSug pS pC] = [mkSug pS pB, mkSug pS pC] := by
  simp [sortDesc, insertDesc, delta_pB, delta_pC]
  norm_num

/-- The engine's output on the example: the second swap is lost to
the name-keyed dedup although its `(sell.id, buy.id)` key is new. -/
theorem top3_exEl : top3 exEl exT 10 = [mkSug pS pB] := by
  unfold top3
  rw [suggestions_exEl, sortDesc_exEl]
  simp [takeTop, nameKey, mkSug, pS, pB, pC]

/-- The id-keyed variant described by the specification keeps both
swaps on the example. -/
theorem top3IdKey_exEl : top3IdKey exEl exT 10 = [mkSug pS pB, mkSug pS pC] := by
  unfold top3IdKey
  rw [suggestions_exEl, sortDesc_exEl]
  simp [takeTopIdKey, idKey, mkSug, pS, pB, pC]

/-- The surviving example swap is in the output. -/
theorem mkSugPB_mem_top3 : mkSug pS pB ∈ top3 exEl exT 10 := by
  rw [top3_exEl]
  exact List.mem_singleton.mpr rfl

/-! Claim theorems. -/

/-- C1, counterexample: the dedup of lines 251-259 is keyed by the
display-name pair, not by `(sell.id, buy.id)`.  On `exEl` the two
feasible swaps have distinct id keys `(1, 2)` and `(1, 3)` but equal
name keys `("S", "X")`, so the engine returns one entry where the
id-keyed dedup described by the specification returns two. -/
theorem C1_counterexample :
    top3 exEl exT 10 ≠ top3IdKey exEl exT 10 ∧
      (top3 exEl exT 10).length = 1 ∧ (top3IdKey exEl exT 10).length = 2 := by
  rw [top3_exEl, top3IdKey_exEl]
  refine ⟨?_, rfl, rfl⟩
  intro h
  have := congrArg List.length h
  simp at this

/-- C1, amended: the dedup key is the `(out_name, in_name)`
display-name pair and only the first occurrence of each name key
under the sort order is retained; provided universe ids are unique
and the roster is a duplicate-free subset of the universe, the
returned list still has no two entries with the same
`(sell.id, buy.id)` pair (and none with the same name pair). -/
theorem C1_thm (el : List Elem) (tids : List Nat) (bank : Nat)
    (hel : (el.map Elem.id).Nodup) (htids : tids.Nodup)
    (hsub : ∀ sid ∈ tids, ∃ p ∈ el, p.id = sid) :
    ((top3 el tids bank).map idKey).Nodup ∧ ((top3 el tids bank).map nameKey).Nodup := by
  constructor
  · have h1 := @suggestions_idKey_nodup el tids bank hel htids hsub
    have h2 : ((sortDesc (suggestions el tids bank)).map idKey).Nodup :=
      (((sortDesc_perm (suggestions el tids bank)).map idKey).nodup_iff).mpr h1
    exact ((takeTop_sublist 3 [] _).map idKey).nodup h2
  · exact (takeTop_names _ 3 []).2

/-- C1, witness: the amended statement instantiated on the example
data. -/
theorem C1_witness :
    ((top3 exEl exT 10).map idKey).Nodup ∧ ((top3 exEl exT 10).map nameKey).Nodup :=
  C1_thm exEl exT 10 (by decide) (by decide) (by decide)

/-- C2, counterexample: on `exEl` there are two feasible
positive-gain swaps, yet the engine returns a single entry, so the
returned length is not `min(3, number of feasible positive-gain
swaps)` — the name-keyed dedup can drop non-duplicate swaps. -/
theorem C2_counterexample :
    (suggestions exEl exT 10).length = 2 ∧ (top3 exEl exT 10).length = 1 ∧
      (top3 exEl exT 10).length ≠ min 3 (suggestions exEl exT 10).length := by
  rw [suggestions_exEl, top3_exEl]
  exact ⟨rfl, rfl, by decide⟩

/-- C2, amended: the returned length equals `min(3, number of
distinct `(out_name, in_name)` keys among the feasible positive-gain
swaps)`, and the entries appear in descending order of the stored
(rounded) `delta`. -/
theorem C2_thm (el : List Elem) (tids : List Nat) (bank : Nat) :
    (top3 el tids bank).length =
        min 3 ((suggestions el tids bank).map nameKey).toFinset.card ∧
      (top3 el tids bank).Pairwise (fun a b => b.delta ≤ a.delta) := by
  constructor
  · have h1 := takeTop_length (sortDesc (suggestions el tids bank)) 3 []
    have h2 : ((sortDesc (suggestions el tids bank)).map nameKey).toFinset =
        ((suggestions el tids bank).map nameKey).toFinset :=
      List.toFinset_eq_of_perm _ _ ((sortDesc_perm (suggestions el tids bank)).map nameKey)
    rw [top3, h1, h2]
    simp
  · exact List.Pairwise.sublist (takeTop_sublist 3 [] _) (sortDesc_pairwise _)

/-- C3: every returned swap satisfies
`buy.cost ≤ bank + sell.cost` exactly, in integer arithmetic, and
the boundary is inclusive: a pool candidate costing exactly
`bank + sell.cost` passes the budget check, so it is generated
whenever the quota and positive-gain checks also pass. -/
theorem C3_thm (el : List Elem) (tids : List Nat) (bank : Nat) :
    (∀ s ∈ top3 el tids bank, s.buy.now_cost ≤ bank + s.sell.now_cost) ∧
      (∀ sid ∈ tids, ∀ cand ∈ pool_by_pos el tids (lookupEl el sid).element_type,
        cand.now_cost = bank + (lookupEl el sid).now_cost →
        team_counts el tids cand.team
            - (if cand.team = (lookupEl el sid).team then 1 else 0) + 1 ≤ 3 →
        0 < ep cand.ep_next - ep (lookupEl el sid).ep_next →
        mkSug (lookupEl el sid) cand ∈ suggestions el tids bank) := by
  constructor
  · intro s hs
    rcases mem_suggestions.mp (mem_of_mem_top3 hs) with
      ⟨sid, _, cand, _, hb, _, _, rfl⟩
    exact hb
  · intro sid hsid cand hcand hcost hq hd
    exact mem_suggestions.mpr ⟨sid, hsid, cand, hcand, le_of_eq hcost, hq, hd, rfl⟩

/-- C3, witness: the general bound on the example output, and the
boundary scenario — `pD` costs exactly `5 + 80` and is generated. -/
theorem C3_witness :
    (mkSug pS pB).buy.now_cost ≤ 10 + (mkSug pS pB).sell.now_cost ∧
      mkSug (lookupEl exElC 1) pD ∈ suggestions exElC [1] 5 := by
  constructor
  · exact (C3_thm exEl exT 10).1 (mkSug pS pB) mkSugPB_mem_top3
  · refine (C3_thm exElC [1] 5).2 1 (by decide) pD (by decide) (by decide) (by decide) ?_
    rw [show lookupEl exElC 1 = pS from by decide]
    rw [show pD.ep_next = some "9.0" from rfl, show pS.ep_next = some "1.0" from rfl,
      ep_nine, ep_one]
    norm_num

/-- C4: if the input roster respects the club quota (no club owns
more than 3), then for every returned swap replacing `sell` by `buy`
leaves every club's owned-player count at most 3; the engine checks
this with the decrement-then-verify rule
`adjusted_quota[buy.club] + 1 ≤ 3`, so when `buy.club = sell.club`
the freed slot is immediately reusable. -/
theorem C4_thm (el : List Elem) (tids : List Nat) (bank : Nat)
    (hq3 : ∀ c, team_counts el tids c ≤ 3) :
    ∀ s ∈ top3 el tids bank, ∀ c, postSwapCount el tids s c ≤ 3 := by
  intro s hs c
  rcases mem_suggestions.mp (mem_of_mem_top3 hs) with
    ⟨sid, _, cand, _, _, hq, _, rfl⟩
  unfold postSwapCount
  rw [show (mkSug (lookupEl el sid) cand).sell = lookupEl el sid from rfl,
    show (mkSug (lookupEl el sid) cand).buy = cand from rfl]
  by_cases hc : c = cand.team
  · subst hc
    rw [if_pos rfl]
    exact hq
  · rw [if_neg hc]
    split_ifs with hsp
    · linarith [hq3 c]
    · linarith [hq3 c]

/-- C4, witness: the quota bound on the example output, at the buying
club. -/
theorem C4_witness : postSwapCount exEl exT (mkSug pS pB) 2 ≤ 3 :=
  C4_thm exEl exT 10
    (by
      intro c
      rw [team_counts_exEl c]
      split_ifs <;> norm_num)
    (mkSug pS pB) mkSugPB_mem_top3 2

/-- C5: every returned swap has strictly positive exact score gain
`projected_score(buy) - projected_score(sell)`; a zero- or
negative-gain swap is never returned (the check of line 238 skips
`delta <= 0`). -/
theorem C5_thm (el : List Elem) (tids : List Nat) (bank : Nat) :
    ∀ s ∈ top3 el tids bank, 0 < ep s.buy.ep_next - ep s.sell.ep_next := by
  intro s hs
  rcases mem_suggestions.mp (mem_of_mem_top3 hs) with
    ⟨sid, _, cand, _, _, _, hd, rfl⟩
  exact hd

/-- C5, witness: positive gain of the surviving example swap. -/
theorem C5_witness : 0 < ep (mkSug pS pB).buy.ep_next - ep (mkSug pS pB).sell.ep_next :=
  C5_thm exEl exT 10 (mkSug pS pB) mkSugPB_mem_top3

/-- C6: the candidate pool considered for `sell` consists exactly of
the universe players that are not owned, have status `"a"` or `"d"`
(available or doubtful), and share `sell`'s position; every returned
swap buys such a player, so unavailable or suspended players are
never suggested as incoming. -/
theorem C6_thm (el : List Elem) (tids : List Nat) (bank : Nat) :
    (∀ (pos : Nat) (p : Elem), p ∈ pool_by_pos el tids pos ↔
        p ∈ el ∧ ¬ p.id ∈ tids ∧ (p.status = "a" ∨ p.status = "d") ∧ p.element_type = pos) ∧
      (∀ s ∈ top3 el tids bank,
        s.buy ∈ el ∧ ¬ s.buy.id ∈ tids ∧ (s.buy.status = "a" ∨ s.buy.status = "d") ∧
          s.buy.element_type = s.sell.element_type) := by
  have hpool : ∀ (pos : Nat) (p : Elem), p ∈ pool_by_pos el tids pos ↔
      p ∈ el ∧ ¬ p.id ∈ tids ∧ (p.status = "a" ∨ p.status = "d") ∧ p.element_type = pos := by
    intro pos p
    rw [pool_by_pos_eq_filter, List.mem_filter]
    simp
  refine ⟨hpool, ?_⟩
  intro s hs
  rcases mem_suggestions.mp (mem_of_mem_top3 hs) with
    ⟨sid, _, cand, hcand, _, _, _, rfl⟩
  rcases (hpool _ cand).mp hcand with ⟨hin, hown, hst, hpos⟩
  exact ⟨hin, hown, hst, hpos⟩

/-- C6, witness: the surviving example swap buys an eligible pool
player. -/
theorem C6_witness :
    (mkSug pS pB).buy ∈ exEl ∧ ¬ (mkSug pS pB).buy.id ∈ exT ∧
      ((mkSug pS pB).buy.status = "a" ∨ (mkSug pS pB).buy.status = "d") ∧
      (mkSug pS pB).buy.element_type = (mkSug pS pB).sell.element_type :=
  (C6_thm exEl exT 10).2 (mkSug pS pB) mkSugPB_mem_top3

/-- C7: the score coercion `ep` of lines 24-28 is total — a missing
value or an unparseable string yields `0.0`, never an error — and on
any parseable value it returns exactly that numeric value (the
special-cased literal `"0.0"` parses to `0`, consistently). -/
theorem C7_thm (v : Option String) :
    (v = none → ep v = 0) ∧
      (∀ s, v = some s → pyFloat s = none → ep v = 0) ∧
      (∀ s q, v = some s → pyFloat s = some q → ep v = q) := by
  refine ⟨?_, ?_, ?_⟩
  · rintro rfl
    rfl
  · rintro s rfl hn
    show (if s = "" ∨ s = "0.0" then (0 : ℚ) else (pyFloat s).getD 0) = 0
    by_cases h : s = "" ∨ s = "0.0"
    · rw [if_pos h]
    · rw [if_neg h, hn]
      rfl
  · rintro s q rfl hq
    show (if s = "" ∨ s = "0.0" then (0 : ℚ) else (pyFloat s).getD 0) = q
    by_cases h : s = "" ∨ s = "0.0"
    · rcases h with rfl | rfl
      · rw [show pyFloat "" = none from by
          rw [pyFloat, show pyFloatRaw "" = none from by decide]
          rfl] at hq
        exact absurd hq (by simp)
      · rw [show pyFloat "0.0" = some (ratOfParts (false, 0, 0, 1)) from by
          rw [pyFloat, show pyFloatRaw "0.0" = some (false, 0, 0, 1) from by decide]
          rfl] at hq
        have hq0 : q = ratOfParts (false, 0, 0, 1) := (Option.some_inj.mp hq).symm
        rw [if_pos (Or.inr rfl), hq0]
        norm_num [ratOfParts]
    · rw [if_neg h, hq]
      rfl

/-- C7, witness: an unparseable placeholder coerces to `0`; a plain
decimal coerces to its value. -/
theorem C7_witness : ep (some "abc") = 0 ∧ ep (some "2.5") = 5 / 2 := by
  constructor
  · exact (C7_thm (some "abc")).2.1 "abc" rfl
      (by
        rw [pyFloat, show pyFloatRaw "abc" = none from by decide]
        rfl)
  · refine (C7_thm (some "2.5")).2.2 "2.5" (5 / 2) rfl ?_
    rw [pyFloat, show pyFloatRaw "2.5" = some (false, 2, 5, 1) from by decide]
    show some (ratOfParts (false, 2, 5, 1)) = some (5 / 2)
    norm_num [ratOfParts]

/-- C8: when no candidate improves on its owned player, the engine
returns the empty list and lines 261-262 select the distinguished
"no positive-gain upgrades found" output, which is a first-class
state of `Output`, not an error. -/
theorem C8_thm (el : List Elem) (tids : List Nat) (bank : Nat)
    (h : ∀ sid ∈ tids, ∀ cand ∈ pool_by_pos el tids (lookupEl el sid).element_type,
      ep cand.ep_next ≤ ep (lookupEl el sid).ep_next) :
    top3 el tids bank = [] ∧ emit (top3 el tids bank) = Output.noUpgrades := by
  have hsug : suggestions el tids bank = [] := by
    rw [List.eq_nil_iff_forall_not_mem]
    intro s hs
    rcases mem_suggestions.mp hs with ⟨sid, hsid, cand, hcand, _, _, hd, _⟩
    have := h sid hsid cand hcand
    linarith
  have htop : top3 el tids bank = [] := by
    rw [top3, hsug]
    rfl
  refine ⟨htop, ?_⟩
  rw [htop]
  rfl

/-- C8, witness: scenario D — the only candidate scores 0.5 against
the owned player's 1.0, so the run yields the no-upgrades state. -/
theorem C8_witness :
    top3 exElD [1] 10 = [] ∧ emit (top3 exElD [1] 10) = Output.noUpgrades := by
  refine C8_thm exElD [1] 10 ?_
  intro sid hsid cand hcand
  have hsid1 : sid = 1 := by simpa using hsid
  subst hsid1
  rw [show lookupEl exElD 1 = pS from by decide] at hcand ⊢
  rw [show pool_by_pos exElD [1] pS.element_type = [pE] from by decide] at hcand
  have hcand1 : cand = pE := by simpa using hcand
  subst hcand1
  rw [show pE.ep_next = some "0.5" from rfl, show pS.ep_next = some "1.0" from rfl,
    ep_half, ep_one]
  norm_num

/-- C9: the engine of lines 219-259 is a deterministic pure function
of the roster, universe and bank snapshots: equal inputs give the
identical ordered output and the identical emitted message. -/
theorem C9_thm (el₁ el₂ : List Elem) (tids₁ tids₂ : List Nat) (b₁ b₂ : Nat)
    (he : el₁ = el₂) (ht : tids₁ = tids₂) (hb : b₁ = b₂) :
    top3 el₁ tids₁ b₁ = top3 el₂ tids₂ b₂ ∧
      emit (top3 el₁ tids₁ b₁) = emit (top3 el₂ tids₂ b₂) := by
  subst he
  subst ht
  subst hb
  exact ⟨rfl, rfl⟩

/-- C9, witness: two runs on the example snapshot coincide. -/
theorem C9_witness :
    top3 exEl exT 10 = top3 exEl exT 10 ∧
      emit (top3 exEl exT 10) = emit (top3 exEl exT 10) :=
  C9_thm exEl exEl exT exT 10 10 rfl rfl rfl

/-- C10: ranking uses the rounded delta — every returned entry's
`delta` field is `round2` of the exact gain and is the sort key; the
sort is stable on equal stored deltas (the enumeration order — roster
order of the sold player, then pool order of the bought player — is
preserved within each delta class), sorts the stored field
descendingly, and permutes the generated list. -/
theorem C10_thm (el : List Elem) (tids : List Nat) (bank : Nat) :
    (∀ s ∈ top3 el tids bank, s.delta = round2 (ep s.buy.ep_next - ep s.sell.ep_next)) ∧
      (∀ d : ℚ, (sortDesc (suggestions el tids bank)).filter (fun x => decide (x.delta = d)) =
        (suggestions el tids bank).filter (fun x => decide (x.delta = d))) ∧
      (sortDesc (suggestions el tids bank)).Pairwise (fun a b => b.delta ≤ a.delta) ∧
      (sortDesc (suggestions el tids bank)).Perm (suggestions el tids bank) := by
  refine ⟨?_, fun d => filter_sortDesc d _, sortDesc_pairwise _, sortDesc_perm _⟩
  intro s hs
  rcases mem_suggestions.mp (mem_of_mem_top3 hs) with ⟨sid, _, cand, _, _, _, _, rfl⟩
  rfl

/-- C10, witness: the reported delta of the surviving example entry
is the rounded exact gain. -/
theorem C10_witness :
    (mkSug pS pB).delta = round2 (ep (mkSug pS pB).buy.ep_next - ep (mkSug pS pB).sell.ep_next) :=
  (C10_thm exEl exT 10).1 (mkSug pS pB) mkSugPB_mem_top3
